import Mathlib

/-!
Shallow embedding of the one-pass weighted random sampler without
replacement (crate `wswor`, file `src/lib.rs`).

Modelling conventions:

* IEEE-754 floating point numbers (the `F : Float` type parameter of the
  Rust source) are modelled as sign/magnitude values with an exact
  rational magnitude (type `Fp`): `nan`, signed infinities, and signed
  finite values.  Rounding and overflow of finite arithmetic are not
  modelled (real-valued idealization); the special values produced by
  division (`x / 0`, NaN propagation) are modelled exactly, because the
  sampler's behaviour on zero weights depends on them.  The model does
  not distinguish subnormal from normal finite values; the source only
  ever pattern-matches on the `Nan` and `Infinite` categories and treats
  everything else with a wildcard.
* The randomness source (`rng: &mut R` together with
  `Exp1.sample_iter(rng)`) is modelled as a fixed stream of rational
  draws `d : Nat → ℚ` plus a cursor `ix : Nat`; drawing one `Exp1`
  variate reads `d ix` and advances the cursor by one.  Constructing the
  sample iterator itself consumes nothing (it is lazy in the source);
  only `.next()` does.
* `BinaryHeap<WsworEntry<F, T>>` is modelled as a list kept sorted in
  ascending key order: `push` is an ordered insertion and `pop` (which
  removes a maximal element) removes the last element.  Which of several
  key-equal entries a `pop` removes is unspecified in the source
  ("ties broken arbitrarily"); this model fixes one resolution, and
  theorems whose truth would depend on the tie order carry a
  distinct-keys hypothesis.
-/

/-- Extended rationals: the totally ordered value space of non-NaN
floating point numbers. -/
inductive XQ where
  | negInf : XQ
  | fin : ℚ → XQ
  | posInf : XQ
deriving DecidableEq

/-- Order on extended rationals, `x ≤ y`. -/
def XQ.ble : XQ → XQ → Bool
  | .negInf, _ => true
  | _, .posInf => true
  | .fin a, .fin b => a ≤ b
  | .posInf, .negInf => false
  | .posInf, .fin _ => false
  | .fin _, .negInf => false

/-- Strict order on extended rationals, `x < y`. -/
def XQ.blt (a b : XQ) : Bool := !(XQ.ble b a)

/-- Model of an IEEE-754 floating point number: NaN, a signed infinity,
or a signed finite value given by its sign bit and (nonnegative, exact)
magnitude.  `finite true 0` is negative zero. -/
inductive Fp where
  | nan : Fp
  | inf : Bool → Fp
  | finite : Bool → ℚ → Fp
deriving DecidableEq

/-- The real value of a non-NaN float, as an extended rational;
`none` exactly for NaN.  Positive and negative zero both map to `fin 0`,
matching IEEE comparison semantics. -/
def Fp.toXQ : Fp → Option XQ
  | .nan => none
  | .inf b => some (if b then .negInf else .posInf)
  | .finite b q => some (.fin (if b then -q else q))

/-- IEEE `==`: false whenever either side is NaN; `-0.0 == 0.0`. -/
def Fp.beq (x y : Fp) : Bool :=
  match x.toXQ, y.toXQ with
  | some a, some b => a = b
  | _, _ => false

/-- IEEE `<`: false whenever either side is NaN. -/
def Fp.blt (x y : Fp) : Bool :=
  match x.toXQ, y.toXQ with
  | some a, some b => XQ.blt a b
  | _, _ => false

/-- IEEE `<=`: false whenever either side is NaN. -/
def Fp.ble (x y : Fp) : Bool :=
  match x.toXQ, y.toXQ with
  | some a, some b => XQ.ble a b
  | _, _ => false

/-- `PartialOrd::partial_cmp` on floats: `none` exactly when a NaN is
involved, otherwise the ordering of the real values. -/
def Fp.cmpOpt (x y : Fp) : Option Ordering :=
  match x.toXQ, y.toXQ with
  | some a, some b =>
      some (if XQ.blt a b then .lt else if a = b then .eq else .gt)
  | _, _ => none

/-- The floating point categories the source inspects
(`core::num::FpCategory`); subnormal values are not distinguished from
normal ones because the source treats both with a wildcard arm. -/
inductive FpCategory where
  | nan | infinite | zero | normal
deriving DecidableEq

/-- `Float::classify`. -/
def Fp.classify : Fp → FpCategory
  | .nan => .nan
  | .inf _ => .infinite
  | .finite _ q => if q = 0 then .zero else .normal

/-- `Float::is_sign_negative`: the sign bit, true also for `-0.0` and
for NaN values modelled with a set sign (our single `nan` is unsigned,
matching the source's use only after the NaN case is excluded). -/
def Fp.is_sign_negative : Fp → Bool
  | .nan => false
  | .inf b => b
  | .finite b _ => b

/-- `F::zero()`: positive zero. -/
def Fp.zero : Fp := .finite false 0

/-- `F::max_value()`: the largest finite value; for `f64` this is
`(2^53 - 1) · 2^971 = 2^1024 - 2^971`, an exact rational. -/
def Fp.maxValue : Fp := .finite false ((2 : ℚ) ^ 1024 - (2 : ℚ) ^ 971)

/-- IEEE division, restricted to exact rational results on finite
operands (no rounding/overflow): `±finite / ±0` is a signed infinity
when the numerator is nonzero and NaN when it is `0 / 0`; any NaN
operand propagates; `∞ / ∞` is NaN; `finite / ∞` is a signed zero. -/
def Fp.div : Fp → Fp → Fp
  | .nan, _ => .nan
  | _, .nan => .nan
  | .inf _, .inf _ => .nan
  | .inf s, .finite t _ => .inf (xor s t)
  | .finite s _, .inf t => .finite (xor s t) 0
  | .finite s a, .finite t b =>
      if b = 0 then (if a = 0 then .nan else .inf (xor s t))
      else .finite (xor s t) (a / b)

/-- The three kinds of invalid weight (`enum HasInvalidWeights`). -/
inductive HasInvalidWeights where
  | NaN : HasInvalidWeights
  | Infinite : HasInvalidWeights
  | Negative : HasInvalidWeights
deriving DecidableEq

/-- `HasInvalidWeights::check_weight`: reject NaN, then infinities, then
any value whose sign bit is set; accept everything else. -/
def HasInvalidWeights.check_weight (weight : Fp) :
    Except HasInvalidWeights Unit :=
  match weight.classify with
  | .nan => .error .NaN
  | .infinite => .error .Infinite
  | _ =>
      if weight.is_sign_negative then .error .Negative
      else .ok ()


/-- `WsworEntry`: a reservoir entry.  As in the source, the field named
`weight` actually stores the derived priority key, and `val` the
caller's value. -/
structure WsworEntry (T : Type) where
  weight : Fp
  val : T
deriving DecidableEq

/-- `WsworEntry`'s `PartialOrd::partial_cmp`: compares by key alone. -/
def WsworEntry.partial_cmp {T : Type} (a b : WsworEntry T) :
    Option Ordering :=
  Fp.cmpOpt a.weight b.weight

/-- `StreamingWswor`: the general reservoir, a capacity and a binary
heap.  The heap is modelled as a list sorted ascending by key (see the
file header); `heap.pop()` removes a maximal entry, i.e. the last. -/
structure StreamingWswor (T : Type) where
  count : ℕ
  heap : List (WsworEntry T)
deriving DecidableEq

/-- `StreamingWswor::new`: empty heap (`with_capacity` only
preallocates). -/
def StreamingWswor.new (T : Type) (count : ℕ) : StreamingWswor T :=
  ⟨count, []⟩

/-- The key computation of `StreamingWswor::feed` together with its
effect on the randomness cursor: a zero weight (IEEE `==`) gives the
sentinel `F::max_value()` and consumes no draw; otherwise one
`Exp1` draw `d ix` is consumed and the key is `draw / weight`. -/
def keyOf (d : ℕ → ℚ) (weight : Fp) (ix : ℕ) : Fp × ℕ :=
  if weight.beq Fp.zero then (Fp.maxValue, ix)
  else (Fp.div (Fp.finite false (d ix)) weight, ix + 1)

/-- `BinaryHeap::push` in the sorted-list model: ordered insertion.
A new entry is placed before the first strictly greater key, hence
after any key-equal entries. -/
def insortEntry {T : Type} (e : WsworEntry T) :
    List (WsworEntry T) → List (WsworEntry T)
  | [] => [e]
  | a :: l =>
      if Fp.blt e.weight a.weight then e :: a :: l
      else a :: insortEntry e l

/-- The eviction step of `StreamingWswor::feed`: if the heap now has
more than `count` entries, `pop` the maximal one (the last in the
sorted-list model). -/
def evict {T : Type} (count : ℕ) (h : List (WsworEntry T)) :
    List (WsworEntry T) :=
  if count < h.length then h.dropLast else h

/-- `StreamingWswor::feed`: validate the weight, derive the key
(consuming a draw exactly when the weight is nonzero), push the entry,
evict the maximum if over capacity. -/
def StreamingWswor.feed {T : Type} (d : ℕ → ℚ) (s : StreamingWswor T)
    (val : T) (weight : Fp) (ix : ℕ) :
    Except HasInvalidWeights (StreamingWswor T × ℕ) :=
  match HasInvalidWeights.check_weight weight with
  | .error e => .error e
  | .ok _ =>
      let k := keyOf d weight ix
      .ok (⟨s.count, evict s.count (insortEntry ⟨k.1, val⟩ s.heap)⟩, k.2)

/-- `StreamingWswor::feed_iter` with the mutable-reference semantics
made explicit: the returned state and cursor are the ones reached when
the loop stops, and the third component is the first validation
failure, if any.  On failure the remaining pairs are never consumed. -/
def StreamingWswor.feedIterRun {T : Type} (d : ℕ → ℚ) :
    StreamingWswor T → ℕ → List (Fp × T) →
    StreamingWswor T × ℕ × Option HasInvalidWeights
  | s, ix, [] => (s, ix, none)
  | s, ix, (w, v) :: rest =>
      match StreamingWswor.feed d s v w ix with
      | .error e => (s, ix, some e)
      | .ok (s', ix') => StreamingWswor.feedIterRun d s' ix' rest

/-- `StreamingWswor::take`: the held values (heap order is unspecified
in the source; the model yields them in ascending key order). -/
def StreamingWswor.take {T : Type} (s : StreamingWswor T) : List T :=
  s.heap.map WsworEntry.val

/-- `SingleStreamingWs`: the single-item specialization; an optional
value slot and the key (`exp_value_weight`) of the held value. -/
structure SingleStreamingWs (T : Type) where
  value : Option T
  exp_value_weight : Fp
deriving DecidableEq

/-- `SingleStreamingWs::new`: empty slot, key field initialized to
`F::zero()`. -/
def SingleStreamingWs.new (T : Type) : SingleStreamingWs T :=
  ⟨none, Fp.zero⟩

/-- `SingleStreamingWs::feed`: validate, then unconditionally draw one
variate and form `exp_weight = draw / weight` (no special case for zero
weight); replace the slot when it is empty or the new key is strictly
smaller (IEEE `<`), otherwise keep the held entry. -/
def SingleStreamingWs.feed {T : Type} (d : ℕ → ℚ)
    (s : SingleStreamingWs T) (val : T) (weight : Fp) (ix : ℕ) :
    Except HasInvalidWeights (SingleStreamingWs T × ℕ) :=
  match HasInvalidWeights.check_weight weight with
  | .error e => .error e
  | .ok _ =>
      let exp_weight := Fp.div (Fp.finite false (d ix)) weight
      if s.value.isNone then .ok (⟨some val, exp_weight⟩, ix + 1)
      else if Fp.blt exp_weight s.exp_value_weight then
        .ok (⟨some val, exp_weight⟩, ix + 1)
      else .ok (s, ix + 1)

/-- `SingleStreamingWs::feed_iter`, mutable-reference semantics made
explicit exactly as for the general reservoir. -/
def SingleStreamingWs.feedIterRun {T : Type} (d : ℕ → ℚ) :
    SingleStreamingWs T → ℕ → List (Fp × T) →
    SingleStreamingWs T × ℕ × Option HasInvalidWeights
  | s, ix, [] => (s, ix, none)
  | s, ix, (w, v) :: rest =>
      match SingleStreamingWs.feed d s v w ix with
      | .error e => (s, ix, some e)
      | .ok (s', ix') => SingleStreamingWs.feedIterRun d s' ix' rest

/-- The free function `wswor`: build a capacity-`count` reservoir, feed
the whole sequence, and return the drained values, or the first
validation failure. -/
def wswor {T : Type} (d : ℕ → ℚ) (l : List (Fp × T)) (ix : ℕ)
    (count : ℕ) : Except HasInvalidWeights (List T) :=
  let r := StreamingWswor.feedIterRun d (StreamingWswor.new T count) ix l
  match r.2.2 with
  | some e => .error e
  | none => .ok r.1.take

/-- The stream of reservoir entries a run of the general reservoir
derives from the input pairs: per item the key rule of
`StreamingWswor::feed` (via `keyOf`), threading the randomness cursor.
Used to state what the heap retains. -/
def entriesOf {T : Type} (d : ℕ → ℚ) :
    ℕ → List (Fp × T) → List (WsworEntry T) × ℕ
  | ix, [] => ([], ix)
  | ix, (w, v) :: rest =>
      let k := keyOf d w ix
      let r := entriesOf d k.2 rest
      (⟨k.1, v⟩ :: r.1, r.2)

/-- Insertion sort (by the heap's insertion) of a list of entries:
the fully sorted multiset of every entry derived so far. -/
def insortAll {T : Type} (es : List (WsworEntry T)) :
    List (WsworEntry T) :=
  es.foldl (fun acc e => insortEntry e acc) []

/-- The retention order on reservoir entries: key less-or-equal. -/
def keyLE {T : Type} (a b : WsworEntry T) : Prop :=
  Fp.ble a.weight b.weight = true

instance : DecidableEq (Except HasInvalidWeights Unit) := fun a b =>
  match a, b with
  | .ok (), .ok () => isTrue rfl
  | .ok (), .error _ => isFalse (fun h => Except.noConfusion h)
  | .error _, .ok () => isFalse (fun h => Except.noConfusion h)
  | .error x, .error y =>
      if h : x = y then isTrue (by rw [h])
      else isFalse (fun hh => h (Except.error.inj hh))

/-- C5: `check_weight` classifies every float: NaN values give the NaN
error, positive and negative infinity give the Infinite error, finite
values with the sign bit set (negative zero included) give the Negative
error, and positive zero together with every finite value with a clear
sign bit is accepted. -/
theorem check_weight_classifies :
    HasInvalidWeights.check_weight Fp.nan = .error .NaN ∧
    (∀ b : Bool,
      HasInvalidWeights.check_weight (Fp.inf b) = .error .Infinite) ∧
    (∀ q : ℚ,
      HasInvalidWeights.check_weight (Fp.finite true q) =
        .error .Negative) ∧
    (∀ q : ℚ,
      HasInvalidWeights.check_weight (Fp.finite false q) = .ok ()) := by
  refine ⟨rfl, fun b => rfl, fun q => ?_, fun q => ?_⟩ <;>
    · unfold HasInvalidWeights.check_weight Fp.classify
      by_cases h : q = 0 <;> simp [h, Fp.is_sign_negative]

theorem XQ.ble_total (a b : XQ) : XQ.ble a b = true ∨ XQ.ble b a = true := by
  cases a <;> cases b <;> simp [XQ.ble] <;> exact le_total _ _

theorem XQ.ble_trans {a b c : XQ} (h1 : XQ.ble a b = true)
    (h2 : XQ.ble b c = true) : XQ.ble a c = true := by
  cases a <;> cases b <;> cases c <;> simp [XQ.ble] at * <;>
    exact le_trans h1 h2

theorem XQ.ble_of_blt {a b : XQ} (h : XQ.blt a b = true) :
    XQ.ble a b = true := by
  rcases XQ.ble_total a b with h' | h'
  · exact h'
  · simp [XQ.blt, h'] at h

/-- `check_weight` succeeds exactly on sign-positive finite values. -/
theorem check_weight_ok_iff {w : Fp} :
    HasInvalidWeights.check_weight w = .ok () ↔
      ∃ q : ℚ, w = Fp.finite false q := by
  constructor
  · intro h
    cases w with
    | nan => simp [HasInvalidWeights.check_weight, Fp.classify] at h
    | inf b => simp [HasInvalidWeights.check_weight, Fp.classify] at h
    | finite b q =>
        refine ⟨q, ?_⟩
        cases b with
        | false => rfl
        | true =>
            unfold HasInvalidWeights.check_weight at h
            by_cases hq : q = 0 <;>
              simp [Fp.classify, hq, Fp.is_sign_negative] at h
  · rintro ⟨q, rfl⟩
    unfold HasInvalidWeights.check_weight Fp.classify
    by_cases hq : q = 0 <;> simp [hq, Fp.is_sign_negative]

/-- For a valid weight, the derived key is never NaN: the zero-weight
sentinel is `max_value`, and otherwise `draw / weight` divides by a
nonzero finite value. -/
theorem keyOf_isSome {d : ℕ → ℚ} {w : Fp} {ix : ℕ}
    (hw : HasInvalidWeights.check_weight w = .ok ()) :
    (Fp.toXQ (keyOf d w ix).1).isSome := by
  obtain ⟨q, rfl⟩ := check_weight_ok_iff.mp hw
  unfold keyOf
  by_cases hq : q = 0
  · simp [Fp.beq, Fp.toXQ, Fp.zero, hq, Fp.maxValue]
  · have hb : (Fp.finite false q).beq Fp.zero = false := by
      simp [Fp.beq, Fp.toXQ, Fp.zero, hq]
    simp [hb, Fp.div, hq, Fp.toXQ]

theorem insortEntry_ne_nil {T : Type} (e : WsworEntry T)
    (l : List (WsworEntry T)) : insortEntry e l ≠ [] := by
  cases l with
  | nil => simp [insortEntry]
  | cons a l =>
      unfold insortEntry
      by_cases h : Fp.blt e.weight a.weight = true <;> simp [h]

theorem length_insortEntry {T : Type} (e : WsworEntry T)
    (l : List (WsworEntry T)) :
    (insortEntry e l).length = l.length + 1 := by
  induction l with
  | nil => rfl
  | cons a l ih =>
      unfold insortEntry
      by_cases h : Fp.blt e.weight a.weight = true <;>
        simp [h, ih]

theorem mem_insortEntry {T : Type} {x e : WsworEntry T}
    {l : List (WsworEntry T)} :
    x ∈ insortEntry e l ↔ x = e ∨ x ∈ l := by
  induction l with
  | nil => simp [insortEntry]
  | cons a l ih =>
      unfold insortEntry
      by_cases h : Fp.blt e.weight a.weight = true <;>
        simp [h, ih] <;> tauto

theorem insortEntry_perm {T : Type} (e : WsworEntry T)
    (l : List (WsworEntry T)) : (insortEntry e l).Perm (e :: l) := by
  induction l with
  | nil => rfl
  | cons a l ih =>
      unfold insortEntry
      by_cases h : Fp.blt e.weight a.weight = true
      · simp [h]
      · simp only [h, if_false]
        exact (ih.cons a).trans (List.Perm.swap e a l)

/-- Ordered insertion preserves sortedness, provided no key involved is
NaN (the comparison is total on non-NaN keys). -/
theorem insortEntry_pairwise {T : Type} {e : WsworEntry T}
    {l : List (WsworEntry T)} (he : (Fp.toXQ e.weight).isSome)
    (hl : ∀ x ∈ l, (Fp.toXQ x.weight).isSome)
    (h : l.Pairwise keyLE) : (insortEntry e l).Pairwise keyLE := by
  induction l with
  | nil => simp [insortEntry]
  | cons a l ih =>
      rw [List.pairwise_cons] at h
      obtain ⟨ha, hp⟩ := h
      obtain ⟨xe, hxe⟩ := Option.isSome_iff_exists.mp he
      obtain ⟨xa, hxa⟩ := Option.isSome_iff_exists.mp (hl a (by simp))
      unfold insortEntry
      by_cases hb : Fp.blt e.weight a.weight = true
      · rw [if_pos hb]
        have hea : keyLE e a := by
          unfold keyLE Fp.ble
          rw [hxe, hxa]
          unfold Fp.blt at hb
          rw [hxe, hxa] at hb
          exact XQ.ble_of_blt hb
        refine List.Pairwise.cons ?_ (List.Pairwise.cons ha hp)
        intro x hx
        rcases List.mem_cons.mp hx with rfl | hx
        · exact hea
        · obtain ⟨xx, hxx⟩ :=
            Option.isSome_iff_exists.mp (hl x (by simp [hx]))
          have h1 : XQ.ble xe xa = true := by
            unfold keyLE Fp.ble at hea; rw [hxe, hxa] at hea; exact hea
          have h2 : XQ.ble xa xx = true := by
            have := ha x hx
            unfold keyLE Fp.ble at this; rw [hxa, hxx] at this
            exact this
          unfold keyLE Fp.ble
          rw [hxe, hxx]
          exact XQ.ble_trans h1 h2
      · rw [if_neg hb]
        have hae : keyLE a e := by
          unfold keyLE Fp.ble
          rw [hxa, hxe]
          unfold Fp.blt at hb
          rw [hxe, hxa] at hb
          simpa [XQ.blt] using hb
        refine List.Pairwise.cons ?_ (ih (fun x hx => hl x (by simp [hx])) hp)
        intro x hx
        rcases mem_insortEntry.mp hx with rfl | hx
        · exact hae
        · exact ha x hx

theorem evict_cons {T : Type} (x : WsworEntry T)
    (M : List (WsworEntry T)) (k : ℕ) :
    evict (k + 1) (x :: M) = x :: evict k M := by
  unfold evict
  cases M with
  | nil => simp
  | cons b M' =>
      by_cases h : k < (b :: M').length
      · rw [if_pos (by simp at h ⊢; omega), if_pos h, List.dropLast_cons₂]
      · rw [if_neg (by simp at h ⊢; omega), if_neg h]

theorem evict_take_succ {T : Type} (L : List (WsworEntry T)) (k : ℕ) :
    evict k (L.take (k + 1)) = L.take k := by
  unfold evict
  rcases le_or_lt L.length k with h | h
  · rw [List.take_of_length_le (by omega), List.take_of_length_le h,
      if_neg (by omega)]
  · have hlen : (L.take (k + 1)).length = k + 1 := by
      rw [List.length_take]; omega
    rw [if_pos (by omega), List.dropLast_eq_take, hlen, List.take_take]
    simp

/-- The online bottom-k step: inserting into the retained `k` smallest
and evicting the maximum yields the `k` smallest of the enlarged
collection. -/
theorem evict_insortEntry_take {T : Type} (e : WsworEntry T) :
    ∀ (S : List (WsworEntry T)) (k : ℕ),
    evict k (insortEntry e (S.take k)) = (insortEntry e S).take k := by
  intro S
  induction S with
  | nil =>
      intro k
      cases k with
      | zero => simp [insortEntry, evict]
      | succ k => simp [insortEntry, evict]
  | cons a S' ih =>
      intro k
      cases k with
      | zero =>
          simp [insortEntry, evict]
      | succ k' =>
          rw [List.take_succ_cons]
          unfold insortEntry
          by_cases hb : Fp.blt e.weight a.weight = true
          · rw [if_pos hb, if_pos hb]
            have h1 : (a :: List.take k' S') = (a :: S').take (k' + 1) := by
              rw [List.take_succ_cons]
            rw [h1, evict_cons, evict_take_succ, List.take_succ_cons]
          · rw [if_neg hb, if_neg hb, evict_cons, ih k',
              List.take_succ_cons]

/-- Folding the insert-then-evict step over a stream, starting from the
retained bottom-`k`, retains the bottom-`k` of the whole stream. -/
theorem foldl_evict_insortAll {T : Type} (k : ℕ) :
    ∀ (es S : List (WsworEntry T)),
    List.foldl (fun h e => evict k (insortEntry e h)) (S.take k) es
      = (List.foldl (fun acc e => insortEntry e acc) S es).take k := by
  intro es
  induction es with
  | nil => intro S; rfl
  | cons e es ih =>
      intro S
      simp only [List.foldl_cons]
      rw [evict_insortEntry_take e S k, ih (insortEntry e S)]

theorem foldl_insort_perm {T : Type} :
    ∀ (es S : List (WsworEntry T)),
    (List.foldl (fun acc e => insortEntry e acc) S es).Perm (es ++ S) := by
  intro es
  induction es with
  | nil => intro S; simp
  | cons e es ih =>
      intro S
      simp only [List.foldl_cons, List.cons_append]
      exact (ih (insortEntry e S)).trans
        (((insortEntry_perm e S).append_left es).trans List.perm_middle)

theorem insortAll_perm {T : Type} (es : List (WsworEntry T)) :
    (insortAll es).Perm es := by
  simpa using foldl_insort_perm es []

theorem foldl_insort_pairwise {T : Type} :
    ∀ (es S : List (WsworEntry T)),
    (∀ x ∈ es, (Fp.toXQ x.weight).isSome) →
    (∀ x ∈ S, (Fp.toXQ x.weight).isSome) →
    S.Pairwise keyLE →
    (List.foldl (fun acc e => insortEntry e acc) S es).Pairwise keyLE := by
  intro es
  induction es with
  | nil => intro S _ _ h; exact h
  | cons e es ih =>
      intro S hes hS hp
      simp only [List.foldl_cons]
      refine ih (insortEntry e S)
        (fun x hx => hes x (by simp [hx])) ?_ ?_
      · intro x hx
        rcases mem_insortEntry.mp hx with rfl | hx
        · exact hes x (by simp)
        · exact hS x hx
      · exact insortEntry_pairwise (hes e (by simp)) hS hp

theorem insortAll_pairwise {T : Type} {es : List (WsworEntry T)}
    (h : ∀ x ∈ es, (Fp.toXQ x.weight).isSome) :
    (insortAll es).Pairwise keyLE :=
  foldl_insort_pairwise es [] h (by simp) (by simp)

theorem length_entriesOf {T : Type} (d : ℕ → ℚ) :
    ∀ (l : List (Fp × T)) (ix : ℕ),
    (entriesOf d ix l).1.length = l.length := by
  intro l
  induction l with
  | nil => intro ix; rfl
  | cons p rest ih =>
      intro ix
      obtain ⟨w, v⟩ := p
      simp [entriesOf, ih]

theorem entriesOf_isSome {T : Type} (d : ℕ → ℚ) :
    ∀ (l : List (Fp × T)) (ix : ℕ),
    (∀ p ∈ l, HasInvalidWeights.check_weight p.1 = .ok ()) →
    ∀ e ∈ (entriesOf d ix l).1, (Fp.toXQ e.weight).isSome := by
  intro l
  induction l with
  | nil => intro ix _ e he; simp [entriesOf] at he
  | cons p rest ih =>
      intro ix hv e he
      obtain ⟨w, v⟩ := p
      simp only [entriesOf, List.mem_cons] at he
      rcases he with rfl | he
      · exact keyOf_isSome (hv (w, v) (by simp))
      · exact ih _ (fun p hp => hv p (by simp [hp])) e he

/-- Unfolding a run of `feed_iter` over valid pairs: the final heap is
the insert-then-evict fold of the derived entries, the cursor advances
to the entry stream's final cursor, and no failure is reported. -/
theorem feedIterRun_eq_fold {T : Type} (d : ℕ → ℚ) :
    ∀ (l : List (Fp × T)) (s : StreamingWswor T) (ix : ℕ),
    (∀ p ∈ l, HasInvalidWeights.check_weight p.1 = .ok ()) →
    StreamingWswor.feedIterRun d s ix l =
      (⟨s.count, List.foldl (fun h e => evict s.count (insortEntry e h))
          s.heap (entriesOf d ix l).1⟩,
        (entriesOf d ix l).2, none) := by
  intro l
  induction l with
  | nil => intro s ix _; rfl
  | cons p rest ih =>
      intro s ix hv
      obtain ⟨w, v⟩ := p
      have hw : HasInvalidWeights.check_weight w = .ok () :=
        hv (w, v) (by simp)
      simp only [StreamingWswor.feedIterRun, StreamingWswor.feed, hw]
      rw [ih _ _ (fun p hp => hv p (by simp [hp]))]
      simp [entriesOf]

/-- In a sorted list, every element kept by `dropLast` is bounded by the
last element (the one `pop` removes). -/
theorem pairwise_dropLast_getLast {T : Type} :
    ∀ (l : List (WsworEntry T)) (b : WsworEntry T),
    l.Pairwise keyLE → l.getLast? = some b →
    ∀ x ∈ l.dropLast, keyLE x b := by
  intro l
  induction l with
  | nil => intro b _ h; simp at h
  | cons a t ih =>
      intro b hp hl x hx
      cases t with
      | nil => simp at hx
      | cons c t' =>
          rw [List.getLast?_cons_cons] at hl
          rw [List.dropLast_cons₂] at hx
          rcases List.mem_cons.mp hx with rfl | hx
          · have hne : (c :: t') ≠ [] := List.cons_ne_nil _ _
            have hg := List.getLast?_eq_getLast (c :: t') hne
            rw [hg] at hl
            have hb : b ∈ c :: t' := by
              rw [← Option.some_inj.mp hl]
              exact List.getLast_mem hne
            exact (List.pairwise_cons.mp hp).1 b hb
          · exact ih b (List.pairwise_cons.mp hp).2 hl x hx

/-- A full run from a fresh capacity-`k` reservoir retains the
`k`-prefix of the ascending sort of all derived entries. -/
theorem feedIterRun_new_heap {T : Type} (d : ℕ → ℚ) (k ix : ℕ)
    (l : List (Fp × T))
    (hv : ∀ p ∈ l, HasInvalidWeights.check_weight p.1 = .ok ()) :
    (StreamingWswor.feedIterRun d (StreamingWswor.new T k) ix l).1.heap
      = (insortAll (entriesOf d ix l).1).take k := by
  rw [feedIterRun_eq_fold d l _ ix hv]
  show List.foldl (fun h e => evict k (insortEntry e h)) [] _ = _
  have h0 : ([] : List (WsworEntry T)) = ([] : List (WsworEntry T)).take k := by
    simp
  rw [h0, foldl_evict_insortAll k _ []]
  rfl

/-- C1: after feeding any stream of valid-weight items into a
capacity-`k` reservoir, the heap is exactly the `min(k, i)` entries with
the smallest priority keys among all entries derived so far: it equals
the `k`-prefix of a sorted permutation of the full entry stream.
Moreover, at each feed the evicted entry — the last element of the
post-insertion sorted heap — has a key at least as large as every
retained entry's key. -/
theorem streamingWswor_retains_smallest {T : Type} (d : ℕ → ℚ)
    (k ix : ℕ) (l : List (Fp × T))
    (hv : ∀ p ∈ l, HasInvalidWeights.check_weight p.1 = .ok ()) :
    (StreamingWswor.feedIterRun d (StreamingWswor.new T k) ix l).1.heap
      = (insortAll (entriesOf d ix l).1).take k ∧
    (insortAll (entriesOf d ix l).1).Perm (entriesOf d ix l).1 ∧
    (insortAll (entriesOf d ix l).1).Pairwise keyLE ∧
    (∀ (h : List (WsworEntry T)) (e lastE : WsworEntry T),
      h.Pairwise keyLE → (Fp.toXQ e.weight).isSome →
      (∀ x ∈ h, (Fp.toXQ x.weight).isSome) →
      (insortEntry e h).getLast? = some lastE →
      ∀ x ∈ (insortEntry e h).dropLast, keyLE x lastE) := by
  refine ⟨feedIterRun_new_heap d k ix l hv, insortAll_perm _,
    insortAll_pairwise (entriesOf_isSome d l ix hv), ?_⟩
  intro h e lastE hp he hh hl
  exact pairwise_dropLast_getLast _ lastE (insortEntry_pairwise he hh hp) hl

/-- Witness for C1: a concrete three-item stream, capacity 2. -/
theorem streamingWswor_retains_smallest_witness :
    (∀ p ∈ [((Fp.finite false 1 : Fp), (10 : ℕ)), (Fp.finite false 2, 20),
        (Fp.finite false 0, 30)],
      HasInvalidWeights.check_weight p.1 = .ok ()) ∧
    (StreamingWswor.feedIterRun (fun n => (n : ℚ) + 1)
        (StreamingWswor.new ℕ 2) 0
        [(Fp.finite false 1, 10), (Fp.finite false 2, 20),
         (Fp.finite false 0, 30)]).1.heap
      = (insortAll (entriesOf (fun n => (n : ℚ) + 1) 0
          [((Fp.finite false 1 : Fp), (10 : ℕ)), (Fp.finite false 2, 20),
           (Fp.finite false 0, 30)]).1).take 2 :=
  ⟨by decide, (streamingWswor_retains_smallest (fun n => (n : ℚ) + 1) 2 0 _
    (by decide)).1⟩

/-- C8: after feeding a stream of `n` valid-weight items into a
capacity-`k` reservoir the heap holds exactly `min n k` entries; in
particular a capacity-0 reservoir stays empty. -/
theorem streamingWswor_capacity {T : Type} (d : ℕ → ℚ) (k ix : ℕ)
    (l : List (Fp × T))
    (hv : ∀ p ∈ l, HasInvalidWeights.check_weight p.1 = .ok ()) :
    (StreamingWswor.feedIterRun d (StreamingWswor.new T k)
      ix l).1.heap.length = min l.length k ∧
    (StreamingWswor.feedIterRun d (StreamingWswor.new T 0)
      ix l).1.heap = [] := by
  constructor
  · rw [feedIterRun_new_heap d k ix l hv, List.length_take,
      (insortAll_perm _).length_eq, length_entriesOf, Nat.min_comm]
  · rw [feedIterRun_new_heap d 0 ix l hv]
    simp

/-- Witness for C8: two valid items, capacity 5, yields 2 entries. -/
theorem streamingWswor_capacity_witness :
    (∀ p ∈ [((Fp.finite false 1 : Fp), (7 : ℕ)), (Fp.finite false 3, 8)],
      HasInvalidWeights.check_weight p.1 = .ok ()) ∧
    (StreamingWswor.feedIterRun (fun _ => (1 : ℚ))
        (StreamingWswor.new ℕ 5) 0
        [(Fp.finite false 1, 7), (Fp.finite false 3, 8)]).1.heap.length
      = min 2 5 ∧
    (StreamingWswor.feedIterRun (fun _ => (1 : ℚ))
        (StreamingWswor.new ℕ 0) 0
        [((Fp.finite false 1 : Fp), (7 : ℕ)),
         (Fp.finite false 3, 8)]).1.heap = [] := by
  have h := streamingWswor_capacity (fun _ => (1 : ℚ)) 5 0
    [((Fp.finite false 1 : Fp), (7 : ℕ)), (Fp.finite false 3, 8)]
    (by decide)
  have h0 := streamingWswor_capacity (fun _ => (1 : ℚ)) 0 0
    [((Fp.finite false 1 : Fp), (7 : ℕ)), (Fp.finite false 3, 8)]
    (by decide)
  exact ⟨by decide, h.1, h0.2⟩

/-- C2: feeding a valid weight stores the entry with key and cursor
given by `keyOf`: a zero weight (IEEE equality) stores the sentinel
`F::max_value()` and consumes no draw; a nonzero weight consumes
exactly one draw `d ix` and stores `draw / weight`. -/
theorem streamingWswor_feed_key {T : Type} (d : ℕ → ℚ)
    (s : StreamingWswor T) (v : T) (w : Fp) (ix : ℕ)
    (hw : HasInvalidWeights.check_weight w = .ok ()) :
    StreamingWswor.feed d s v w ix =
      .ok (⟨s.count, evict s.count
          (insortEntry ⟨(keyOf d w ix).1, v⟩ s.heap)⟩,
        (keyOf d w ix).2) ∧
    (w.beq Fp.zero = true → keyOf d w ix = (Fp.maxValue, ix)) ∧
    (w.beq Fp.zero = false →
      keyOf d w ix = (Fp.div (Fp.finite false (d ix)) w, ix + 1)) := by
  refine ⟨?_, fun h => by simp [keyOf, h], fun h => by simp [keyOf, h]⟩
  simp [StreamingWswor.feed, hw]

/-- Witness for C2, at a zero and at a nonzero weight. -/
theorem streamingWswor_feed_key_witness :
    HasInvalidWeights.check_weight (Fp.finite false 0) = .ok () ∧
    HasInvalidWeights.check_weight (Fp.finite false 2) = .ok () ∧
    keyOf (fun _ => (3 : ℚ)) (Fp.finite false 0) 4 = (Fp.maxValue, 4) ∧
    keyOf (fun _ => (3 : ℚ)) (Fp.finite false 2) 4 =
      (Fp.div (Fp.finite false 3) (Fp.finite false 2), 5) := by
  refine ⟨by decide, by decide, ?_, ?_⟩
  · exact (streamingWswor_feed_key (fun _ => (3 : ℚ))
      (StreamingWswor.new ℕ 1) 0 (Fp.finite false 0) 4
      (by decide)).2.1 (by decide)
  · exact (streamingWswor_feed_key (fun _ => (3 : ℚ))
      (StreamingWswor.new ℕ 1) 0 (Fp.finite false 2) 4
      (by decide)).2.2 (by decide)

/-- C6: an invalid weight makes `feed` (on either reservoir) return the
validation failure at once: the reservoir state and the randomness
cursor are unchanged and the remaining pairs of a batch are not
consumed. -/
theorem feed_invalid_unchanged {T : Type} (d : ℕ → ℚ)
    (s : StreamingWswor T) (t : SingleStreamingWs T) (v : T) (w : Fp)
    (ix : ℕ) (e : HasInvalidWeights) (rest : List (Fp × T))
    (hw : HasInvalidWeights.check_weight w = .error e) :
    StreamingWswor.feed d s v w ix = .error e ∧
    SingleStreamingWs.feed d t v w ix = .error e ∧
    StreamingWswor.feedIterRun d s ix ((w, v) :: rest) =
      (s, ix, some e) ∧
    SingleStreamingWs.feedIterRun d t ix ((w, v) :: rest) =
      (t, ix, some e) := by
  refine ⟨?_, ?_, ?_, ?_⟩ <;>
    simp [StreamingWswor.feed, SingleStreamingWs.feed,
      StreamingWswor.feedIterRun, SingleStreamingWs.feedIterRun, hw]

/-- Witness for C6: a NaN weight leaves both reservoirs untouched. -/
theorem feed_invalid_unchanged_witness :
    HasInvalidWeights.check_weight Fp.nan = .error .NaN ∧
    StreamingWswor.feed (fun _ => (1 : ℚ)) (StreamingWswor.new ℕ 2) 9
        Fp.nan 0 = .error .NaN ∧
    SingleStreamingWs.feedIterRun (fun _ => (1 : ℚ))
        (SingleStreamingWs.new ℕ) 0 [(Fp.nan, 9), (Fp.finite false 1, 3)]
      = (SingleStreamingWs.new ℕ, 0, some .NaN) := by
  have h := feed_invalid_unchanged (fun _ => (1 : ℚ))
    (StreamingWswor.new ℕ 2) (SingleStreamingWs.new ℕ) 9 Fp.nan 0 .NaN
    [(Fp.finite false 1, 3)] (by decide)
  exact ⟨by decide, h.1, h.2.2.2⟩

theorem single_feed_isOk {T : Type} (d : ℕ → ℚ)
    (t : SingleStreamingWs T) (v : T) (w : Fp) (ix : ℕ)
    (hw : HasInvalidWeights.check_weight w = .ok ()) :
    ∃ r, SingleStreamingWs.feed d t v w ix = .ok r := by
  simp only [SingleStreamingWs.feed, hw]
  by_cases h1 : t.value.isNone = true
  · simp only [h1, if_true]
    exact ⟨_, rfl⟩
  · simp only [h1, if_false]
    by_cases h2 : Fp.blt (Fp.div (Fp.finite false (d ix)) w)
        t.exp_value_weight = true
    · simp only [h2, if_true]
      exact ⟨_, rfl⟩
    · simp only [h2, if_false]
      exact ⟨_, rfl⟩

/-- A `feed_iter` run over a prefix of valid pairs followed by an
invalid weight ends in the prefix state, reports the failure, and
ignores everything after the invalid pair. -/
theorem feedIterRun_stops_aux {T : Type} (d : ℕ → ℚ) :
    ∀ (pre : List (Fp × T)) (w : Fp) (v : T) (post : List (Fp × T))
      (e : HasInvalidWeights) (s : StreamingWswor T)
      (t : SingleStreamingWs T) (ix jx : ℕ),
    (∀ p ∈ pre, HasInvalidWeights.check_weight p.1 = .ok ()) →
    HasInvalidWeights.check_weight w = .error e →
    (StreamingWswor.feedIterRun d s ix (pre ++ (w, v) :: post) =
      ((StreamingWswor.feedIterRun d s ix pre).1,
        (StreamingWswor.feedIterRun d s ix pre).2.1, some e) ∧
    (StreamingWswor.feedIterRun d s ix pre).2.2 = none ∧
    SingleStreamingWs.feedIterRun d t jx (pre ++ (w, v) :: post) =
      ((SingleStreamingWs.feedIterRun d t jx pre).1,
        (SingleStreamingWs.feedIterRun d t jx pre).2.1, some e) ∧
    (SingleStreamingWs.feedIterRun d t jx pre).2.2 = none) := by
  intro pre
  induction pre with
  | nil =>
      intro w v post e s t ix jx _ hw
      refine ⟨?_, rfl, ?_, rfl⟩ <;>
        simp [StreamingWswor.feedIterRun, SingleStreamingWs.feedIterRun,
          StreamingWswor.feed, SingleStreamingWs.feed, hw]
  | cons p pre ih =>
      intro w v post e s t ix jx hv hw
      obtain ⟨w0, v0⟩ := p
      have hw0 : HasInvalidWeights.check_weight w0 = .ok () :=
        hv (w0, v0) (by simp)
      obtain ⟨⟨t', jx'⟩, hf⟩ := single_feed_isOk d t v0 w0 jx hw0
      simp only [List.cons_append, StreamingWswor.feedIterRun,
        SingleStreamingWs.feedIterRun, StreamingWswor.feed, hw0, hf]
      exact ih w v post e _ t' _ jx'
        (fun p hp => hv p (by simp [hp])) hw

/-- C7: `feed_iter` (on either reservoir) processes pairs in order and
stops at the first validation failure: with the first invalid weight at
position `i`, the run ends in exactly the state and randomness cursor
reached by processing positions `[0, i)` alone — a prefix run that
itself reports no failure — returns that failure, and never consumes
the pairs after position `i` (the result does not depend on `post`). -/
theorem feedIter_first_failure {T : Type} (d : ℕ → ℚ)
    (pre : List (Fp × T)) (w : Fp) (v : T) (post : List (Fp × T))
    (e : HasInvalidWeights) (s : StreamingWswor T)
    (t : SingleStreamingWs T) (ix jx : ℕ)
    (hpre : ∀ p ∈ pre, HasInvalidWeights.check_weight p.1 = .ok ())
    (hw : HasInvalidWeights.check_weight w = .error e) :
    StreamingWswor.feedIterRun d s ix (pre ++ (w, v) :: post) =
      ((StreamingWswor.feedIterRun d s ix pre).1,
        (StreamingWswor.feedIterRun d s ix pre).2.1, some e) ∧
    (StreamingWswor.feedIterRun d s ix pre).2.2 = none ∧
    SingleStreamingWs.feedIterRun d t jx (pre ++ (w, v) :: post) =
      ((SingleStreamingWs.feedIterRun d t jx pre).1,
        (SingleStreamingWs.feedIterRun d t jx pre).2.1, some e) ∧
    (SingleStreamingWs.feedIterRun d t jx pre).2.2 = none :=
  feedIterRun_stops_aux d pre w v post e s t ix jx hpre hw

/-- C9: the convenience function builds a fresh capacity-`k` reservoir,
feeds the whole sequence, and on success returns exactly that
reservoir's drained values; when some weight is invalid it returns the
first validation failure and no values. -/
theorem wswor_spec {T : Type} (d : ℕ → ℚ) (l : List (Fp × T))
    (ix k : ℕ) :
    ((∀ p ∈ l, HasInvalidWeights.check_weight p.1 = .ok ()) →
      wswor d l ix k = .ok
        (StreamingWswor.feedIterRun d (StreamingWswor.new T k)
          ix l).1.take) ∧
    (∀ (pre : List (Fp × T)) (w : Fp) (v : T) (post : List (Fp × T))
        (e : HasInvalidWeights),
      l = pre ++ (w, v) :: post →
      (∀ p ∈ pre, HasInvalidWeights.check_weight p.1 = .ok ()) →
      HasInvalidWeights.check_weight w = .error e →
      wswor d l ix k = .error e) := by
  constructor
  · intro hv
    simp only [wswor]
    rw [feedIterRun_eq_fold d l _ ix hv]
  · rintro pre w v post e rfl hpre hw
    simp only [wswor]
    rw [(feedIterRun_stops_aux d pre w v post e (StreamingWswor.new T k)
      (SingleStreamingWs.new T) ix ix hpre hw).1]

/-- Witness for C7 at a concrete input: one valid pair, then a negative
weight, then a trailing pair that is never consumed. -/
theorem feedIter_first_failure_witness :
    (∀ p ∈ [((Fp.finite false 1 : Fp), (5 : ℕ))],
      HasInvalidWeights.check_weight p.1 = .ok ()) ∧
    HasInvalidWeights.check_weight (Fp.finite true 1) = .error .Negative ∧
    StreamingWswor.feedIterRun (fun _ => (1 : ℚ)) (StreamingWswor.new ℕ 3)
        0 ([(Fp.finite false 1, 5)] ++ (Fp.finite true 1, 6) ::
          [(Fp.finite false 2, 7)]) =
      ((StreamingWswor.feedIterRun (fun _ => (1 : ℚ))
          (StreamingWswor.new ℕ 3) 0 [(Fp.finite false 1, 5)]).1,
        (StreamingWswor.feedIterRun (fun _ => (1 : ℚ))
          (StreamingWswor.new ℕ 3) 0 [(Fp.finite false 1, 5)]).2.1,
        some .Negative) := by
  have h := feedIter_first_failure (fun _ => (1 : ℚ))
    [((Fp.finite false 1 : Fp), (5 : ℕ))] (Fp.finite true 1) 6
    [(Fp.finite false 2, 7)] .Negative (StreamingWswor.new ℕ 3)
    (SingleStreamingWs.new ℕ) 0 0 (by decide) (by decide)
  exact ⟨by decide, by decide, h.1⟩

/-- Witness for C9: a successful run and a failing run. -/
theorem wswor_spec_witness :
    (∀ p ∈ [((Fp.finite false 1 : Fp), (5 : ℕ)), (Fp.finite false 2, 6)],
      HasInvalidWeights.check_weight p.1 = .ok ()) ∧
    wswor (fun _ => (1 : ℚ)) [(Fp.finite false 1, 5), (Fp.finite false 2, 6)]
        0 1 =
      .ok (StreamingWswor.feedIterRun (fun _ => (1 : ℚ))
        (StreamingWswor.new ℕ 1) 0
        [(Fp.finite false 1, 5), (Fp.finite false 2, 6)]).1.take ∧
    wswor (fun _ => (1 : ℚ)) [((Fp.nan : Fp), (5 : ℕ))] 0 1 =
      .error .NaN := by
  refine ⟨by decide, ?_, ?_⟩
  · exact (wswor_spec (fun _ => (1 : ℚ))
      [(Fp.finite false 1, 5), (Fp.finite false 2, 6)] 0 1).1 (by decide)
  · exact (wswor_spec (fun _ => (1 : ℚ)) [((Fp.nan : Fp), (5 : ℕ))] 0 1).2
      [] Fp.nan 5 [] .NaN rfl (by decide) (by decide)

theorem cmpOpt_isSome {x y : Fp} (hx : (Fp.toXQ x).isSome)
    (hy : (Fp.toXQ y).isSome) : (Fp.cmpOpt x y).isSome := by
  obtain ⟨a, ha⟩ := Option.isSome_iff_exists.mp hx
  obtain ⟨b, hb⟩ := Option.isSome_iff_exists.mp hy
  simp [Fp.cmpOpt, ha, hb]

/-- Keys in the heap stay non-NaN across any run: invalid weights never
insert, and valid ones insert the sentinel or a finite quotient. -/
theorem feedIterRun_heap_isSome {T : Type} (d : ℕ → ℚ) :
    ∀ (l : List (Fp × T)) (s : StreamingWswor T) (ix : ℕ),
    (∀ x ∈ s.heap, (Fp.toXQ x.weight).isSome) →
    ∀ x ∈ (StreamingWswor.feedIterRun d s ix l).1.heap,
      (Fp.toXQ x.weight).isSome := by
  intro l
  induction l with
  | nil => intro s ix hs x hx; exact hs x hx
  | cons p rest ih =>
      intro s ix hs x hx
      obtain ⟨w, v⟩ := p
      cases hcw : HasInvalidWeights.check_weight w with
      | error e =>
          simp only [StreamingWswor.feedIterRun, StreamingWswor.feed,
            hcw] at hx
          exact hs x hx
      | ok u =>
          cases u
          simp only [StreamingWswor.feedIterRun, StreamingWswor.feed,
            hcw] at hx
          refine ih _ _ ?_ x hx
          intro y hy
          have hy' : y ∈ insortEntry ⟨(keyOf d w ix).1, v⟩ s.heap := by
            unfold evict at hy
            split at hy
            · exact (List.dropLast_sublist _).subset hy
            · exact hy
          rcases mem_insortEntry.mp hy' with rfl | hy2
          · exact keyOf_isSome hcw
          · exact hs y hy2

/-- C10: every entry the reservoir's heap ever holds has a non-NaN
priority key, so the `partial_cmp(..).unwrap()` in `WsworEntry`'s `Ord`
implementation is defined on every pair of held entries and cannot
panic during heap operations. -/
theorem wsworEntry_ord_never_panics {T : Type} (d : ℕ → ℚ)
    (l : List (Fp × T)) (ix k : ℕ) :
    ∀ a ∈ (StreamingWswor.feedIterRun d (StreamingWswor.new T k)
        ix l).1.heap,
    ∀ b ∈ (StreamingWswor.feedIterRun d (StreamingWswor.new T k)
        ix l).1.heap,
      (WsworEntry.partial_cmp a b).isSome := by
  intro a ha b hb
  have h := feedIterRun_heap_isSome d l (StreamingWswor.new T k) ix
    (by simp [StreamingWswor.new])
  exact cmpOpt_isSome (h a ha) (h b hb)

/-- Witness for C10 at a one-item run. -/
theorem wsworEntry_ord_never_panics_witness :
    (⟨Fp.finite false 1, 0⟩ : WsworEntry ℕ) ∈
      (StreamingWswor.feedIterRun (fun _ => (1 : ℚ))
        (StreamingWswor.new ℕ 1) 0 [(Fp.finite false 1, 0)]).1.heap ∧
    (WsworEntry.partial_cmp (⟨Fp.finite false 1, 0⟩ : WsworEntry ℕ)
      ⟨Fp.finite false 1, 0⟩).isSome := by
  have hm : (⟨Fp.finite false 1, 0⟩ : WsworEntry ℕ) ∈
      (StreamingWswor.feedIterRun (fun _ => (1 : ℚ))
        (StreamingWswor.new ℕ 1) 0 [(Fp.finite false 1, 0)]).1.heap := by
    norm_num [StreamingWswor.feedIterRun, StreamingWswor.feed,
      HasInvalidWeights.check_weight, Fp.classify, Fp.is_sign_negative,
      keyOf, Fp.beq, Fp.toXQ, Fp.zero, Fp.div, insortEntry, evict,
      StreamingWswor.new]
  exact ⟨hm, wsworEntry_ord_never_panics (fun _ => (1 : ℚ))
    [(Fp.finite false 1, 0)] 0 1 _ hm _ hm⟩

/-- C3 counterexample: fed weight exactly zero (draw stream constantly
1), the single-item reservoir consumes a draw — the cursor advances
from 0 to 1 — and stores the key `1 / 0 = +∞`, which is not
`F::max_value()`. -/
theorem single_feed_zero_weight_counterexample :
    SingleStreamingWs.feed (fun _ => (1 : ℚ)) (SingleStreamingWs.new ℕ) 0
        (Fp.finite false 0) 0
      = .ok (⟨some 0, Fp.inf false⟩, 0 + 1) ∧
    Fp.inf false ≠ Fp.maxValue ∧ 0 + 1 ≠ 0 := by
  refine ⟨rfl, ?_, by decide⟩
  intro h
  simp [Fp.maxValue] at h

/-- C3 amended: for any valid weight — zero included — the single-item
reservoir always consumes exactly one draw and computes the key
`exp_weight = draw / weight` (which is `+∞` for a zero weight and a
positive draw, not `F::max_value()`), and it replaces the held slot
exactly when the slot is empty or the new key is strictly smaller than
the held key, discarding the new entry otherwise. -/
theorem single_feed_spec {T : Type} (d : ℕ → ℚ)
    (s : SingleStreamingWs T) (v : T) (w : Fp) (ix : ℕ)
    (hw : HasInvalidWeights.check_weight w = .ok ()) :
    SingleStreamingWs.feed d s v w ix =
      .ok ((if s.value.isNone then
          (⟨some v, Fp.div (Fp.finite false (d ix)) w⟩ :
            SingleStreamingWs T)
        else if Fp.blt (Fp.div (Fp.finite false (d ix)) w)
            s.exp_value_weight then
          ⟨some v, Fp.div (Fp.finite false (d ix)) w⟩
        else s), ix + 1) ∧
    (w.beq Fp.zero = true → 0 < d ix →
      Fp.div (Fp.finite false (d ix)) w = Fp.inf false) := by
  constructor
  · simp only [SingleStreamingWs.feed, hw]
    by_cases h1 : s.value.isNone = true
    · simp [h1]
    · by_cases h2 : Fp.blt (Fp.div (Fp.finite false (d ix)) w)
          s.exp_value_weight = true
      · simp [h1, h2]
      · simp [h1, h2]
  · intro hz hd
    obtain ⟨q, rfl⟩ := check_weight_ok_iff.mp hw
    have hq : q = 0 := by
      simpa [Fp.beq, Fp.toXQ, Fp.zero] using hz
    subst hq
    simp [Fp.div, hd.ne']

/-- Witness for the amended C3, at weight zero and draw 1. -/
theorem single_feed_spec_witness :
    HasInvalidWeights.check_weight (Fp.finite false 0) = .ok () ∧
    (Fp.finite false 0).beq Fp.zero = true ∧ (0 : ℚ) < 1 ∧
    Fp.div (Fp.finite false ((fun _ => (1 : ℚ)) 0)) (Fp.finite false 0)
      = Fp.inf false := by
  refine ⟨by decide, by decide, by norm_num, ?_⟩
  exact (single_feed_spec (fun _ => (1 : ℚ)) (SingleStreamingWs.new ℕ) 0
    (Fp.finite false 0) 0 (by decide)).2 (by decide) (by norm_num)

/-- C4 counterexample: on the stream (0, 10), (1, 20), (1, 30) with
draw sequence 2, 1, 5, the capacity-1 general reservoir retains 30
while the single-item specialization retains 20: a zero-weight item
consumes no draw in the general reservoir but consumes one in the
specialization, desynchronizing all later keys. -/
theorem single_vs_general_counterexample :
    (StreamingWswor.feedIterRun
        (fun n => if n = 0 then (2 : ℚ) else if n = 1 then 1 else 5)
        (StreamingWswor.new ℕ 1) 0
        [(Fp.finite false 0, 10), (Fp.finite false 1, 20),
         (Fp.finite false 1, 30)]).1.take = [30] ∧
    (SingleStreamingWs.feedIterRun
        (fun n => if n = 0 then (2 : ℚ) else if n = 1 then 1 else 5)
        (SingleStreamingWs.new ℕ) 0
        [(Fp.finite false 0, 10), (Fp.finite false 1, 20),
         (Fp.finite false 1, 30)]).1.value = some 20 ∧
    (30 : ℕ) ≠ 20 := by
  refine ⟨?_, ?_, by decide⟩ <;>
    norm_num [StreamingWswor.feedIterRun, StreamingWswor.feed,
      SingleStreamingWs.feedIterRun, SingleStreamingWs.feed,
      HasInvalidWeights.check_weight, Fp.classify, Fp.is_sign_negative,
      keyOf, Fp.beq, Fp.blt, XQ.blt, XQ.ble, Fp.toXQ, Fp.zero, Fp.div,
      Fp.maxValue, insortEntry, evict, StreamingWswor.new,
      SingleStreamingWs.new, StreamingWswor.take]

theorem general_k1_step {T : Type} (d : ℕ → ℚ) (m : Fp) (mv v : T)
    (w : Fp) (ix : ℕ)
    (hw : HasInvalidWeights.check_weight w = .ok ())
    (hz : w.beq Fp.zero = false) :
    StreamingWswor.feed d ⟨1, [⟨m, mv⟩]⟩ v w ix =
      .ok (⟨1, if Fp.blt (Fp.div (Fp.finite false (d ix)) w) m
          then [⟨Fp.div (Fp.finite false (d ix)) w, v⟩]
          else [⟨m, mv⟩]⟩, ix + 1) := by
  simp only [StreamingWswor.feed, hw, keyOf, hz, Bool.false_eq_true,
    if_false]
  by_cases hb : Fp.blt (Fp.div (Fp.finite false (d ix)) w) m = true <;>
    simp [insortEntry, evict, hb]

theorem single_k1_step {T : Type} (d : ℕ → ℚ) (m : Fp) (mv v : T)
    (w : Fp) (ix : ℕ)
    (hw : HasInvalidWeights.check_weight w = .ok ()) :
    SingleStreamingWs.feed d ⟨some mv, m⟩ v w ix =
      .ok ((if Fp.blt (Fp.div (Fp.finite false (d ix)) w) m
          then (⟨some v, Fp.div (Fp.finite false (d ix)) w⟩ :
            SingleStreamingWs T)
          else ⟨some mv, m⟩), ix + 1) := by
  simp only [SingleStreamingWs.feed, hw]
  by_cases hb : Fp.blt (Fp.div (Fp.finite false (d ix)) w) m = true <;>
    simp [hb]

/-- Lockstep run of the capacity-1 general reservoir and the single
specialization from matching nonempty states, over valid nonzero
weights: both retain the same value, consume the same draws, and report
no failure. -/
theorem k1_aux {T : Type} (d : ℕ → ℚ) :
    ∀ (l : List (Fp × T)) (ix : ℕ) (m : Fp) (mv : T),
    (∀ p ∈ l, HasInvalidWeights.check_weight p.1 = .ok () ∧
      p.1.beq Fp.zero = false) →
    (StreamingWswor.feedIterRun d ⟨1, [⟨m, mv⟩]⟩ ix l).1.take =
      (SingleStreamingWs.feedIterRun d ⟨some mv, m⟩ ix l).1.value.toList ∧
    (StreamingWswor.feedIterRun d ⟨1, [⟨m, mv⟩]⟩ ix l).2.1 =
      (SingleStreamingWs.feedIterRun d ⟨some mv, m⟩ ix l).2.1 ∧
    (StreamingWswor.feedIterRun d ⟨1, [⟨m, mv⟩]⟩ ix l).2.2 = none ∧
    (SingleStreamingWs.feedIterRun d ⟨some mv, m⟩ ix l).2.2 = none := by
  intro l
  induction l with
  | nil =>
      intro ix m mv _
      exact ⟨rfl, rfl, rfl, rfl⟩
  | cons p rest ih =>
      intro ix m mv hv
      obtain ⟨w, v⟩ := p
      obtain ⟨hw, hz⟩ := hv (w, v) (by simp)
      simp only [StreamingWswor.feedIterRun, SingleStreamingWs.feedIterRun]
      rw [general_k1_step d m mv v w ix hw hz,
        single_k1_step d m mv v w ix hw]
      by_cases hb : Fp.blt (Fp.div (Fp.finite false (d ix)) w) m = true
      · simp only [hb, if_true]
        exact ih (ix + 1) _ v (fun p hp => hv p (by simp [hp]))
      · simp only [hb, Bool.false_eq_true, if_false]
        exact ih (ix + 1) m mv (fun p hp => hv p (by simp [hp]))

/-- C4 amended: when every weight is valid and strictly nonzero (so
both variants consume one draw per item) and the derived keys are
pairwise distinct (so the arbitrary tie-break of the heap cannot
matter), the single-item specialization and the capacity-1 general
reservoir retain the same value, leave the randomness source at the
same position, and both succeed.  The original claim fails for
zero weights (see the counterexample): the specialization consumes a
draw there while the general reservoir does not. -/
theorem single_equiv_general_k1 {T : Type} (d : ℕ → ℚ)
    (l : List (Fp × T)) (ix : ℕ)
    (hv : ∀ p ∈ l, HasInvalidWeights.check_weight p.1 = .ok () ∧
      p.1.beq Fp.zero = false)
    (hdist : ((entriesOf d ix l).1.map
      (fun e => e.weight)).Pairwise (· ≠ ·)) :
    (StreamingWswor.feedIterRun d (StreamingWswor.new T 1) ix l).1.take =
      (SingleStreamingWs.feedIterRun d (SingleStreamingWs.new T)
        ix l).1.value.toList ∧
    (StreamingWswor.feedIterRun d (StreamingWswor.new T 1) ix l).2.1 =
      (SingleStreamingWs.feedIterRun d (SingleStreamingWs.new T)
        ix l).2.1 ∧
    (StreamingWswor.feedIterRun d (StreamingWswor.new T 1)
      ix l).2.2 = none ∧
    (SingleStreamingWs.feedIterRun d (SingleStreamingWs.new T)
      ix l).2.2 = none := by
  cases l with
  | nil => exact ⟨rfl, rfl, rfl, rfl⟩
  | cons p rest =>
      obtain ⟨w, v⟩ := p
      obtain ⟨hw, hz⟩ := hv (w, v) (by simp)
      have hg : StreamingWswor.feed d (StreamingWswor.new T 1) v w ix =
          .ok (⟨1, [⟨Fp.div (Fp.finite false (d ix)) w, v⟩]⟩, ix + 1) := by
        simp [StreamingWswor.feed, hw, keyOf, hz, insortEntry, evict,
          StreamingWswor.new]
      have hs : SingleStreamingWs.feed d (SingleStreamingWs.new T) v w
          ix = .ok (⟨some v, Fp.div (Fp.finite false (d ix)) w⟩,
            ix + 1) := by
        simp [SingleStreamingWs.feed, hw, SingleStreamingWs.new]
      simp only [StreamingWswor.feedIterRun, SingleStreamingWs.feedIterRun]
      rw [hg, hs]
      exact k1_aux d rest (ix + 1) _ v (fun p hp => hv p (by simp [hp]))

/-- Witness for the amended C4: two positive-weight items with distinct
keys; both variants retain the same value. -/
theorem single_equiv_general_k1_witness :
    (∀ p ∈ [((Fp.finite false 1 : Fp), (4 : ℕ)), (Fp.finite false 2, 5)],
      HasInvalidWeights.check_weight p.1 = .ok () ∧
        p.1.beq Fp.zero = false) ∧
    ((entriesOf (fun n => if n = 0 then (1 : ℚ) else 4) 0
        [((Fp.finite false 1 : Fp), (4 : ℕ)), (Fp.finite false 2, 5)]).1.map
      (fun e => e.weight)).Pairwise (· ≠ ·) ∧
    (StreamingWswor.feedIterRun (fun n => if n = 0 then (1 : ℚ) else 4)
        (StreamingWswor.new ℕ 1) 0
        [(Fp.finite false 1, 4), (Fp.finite false 2, 5)]).1.take =
      (SingleStreamingWs.feedIterRun (fun n => if n = 0 then (1 : ℚ) else 4)
        (SingleStreamingWs.new ℕ) 0
        [(Fp.finite false 1, 4), (Fp.finite false 2, 5)]).1.value.toList := by
  have hdist : ((entriesOf (fun n => if n = 0 then (1 : ℚ) else 4) 0
      [((Fp.finite false 1 : Fp), (4 : ℕ)), (Fp.finite false 2, 5)]).1.map
        (fun e => e.weight)).Pairwise (· ≠ ·) := by
    norm_num [entriesOf, keyOf, Fp.beq, Fp.toXQ, Fp.zero, Fp.div]
  refine ⟨by decide, hdist, ?_⟩
  exact (single_equiv_general_k1 (fun n => if n = 0 then (1 : ℚ) else 4)
    [(Fp.finite false 1, 4), (Fp.finite false 2, 5)] 0 (by decide)
    hdist).1
